import Mathlib

/-!
Shallow embedding of `justin-min-es2015.js` (JustIn: adaptive just intonation
for MIDI pitches).  MIDI pitches and velocities are modelled as `Int`, the
fractional (justly retuned) pitches as `ℚ`.  The mutable global state of the
script (`intensity`, `meanMode`, `heldNotes`, `justSystem`) is gathered in a
structure `St`; every entry point returns the new state together with the list
of messages sent to the outlet (the Max console channel used by `postError`
is modelled by the `Msg.consolePost` constructor).
-/

namespace JustIn

/-- A `Note` as built by the source constructor `Note(_pitch, _velocity)`:
`equalPitch` is the MIDI pitch sent in, `justPitch` the retuned version
(initially the same), `order` the Order of the interval that last changed
`justPitch` (initially `-1`), `velocity` the MIDI velocity. -/
structure Note where
  equalPitch : Int
  justPitch : ℚ
  order : Int
  velocity : Int
deriving DecidableEq

/-- A row of a tuning table, source constructor `JustObj`. -/
structure JustObj where
  equalInterval : Int
  justInterval : ℚ
  order : Int
deriving DecidableEq

/-- Default `Note` used to totalise array reads (never hit at in-range indices). -/
def dNote : Note := { equalPitch := 0, justPitch := 0, order := -1, velocity := 0 }

/-- Default `JustObj` used to totalise array reads. -/
def dObj : JustObj := { equalInterval := 0, justInterval := 0, order := 0 }

/-- `heldNotes[i]`, totalised with `dNote`. -/
def nget (l : List Note) (i : Nat) : Note := l.getD i dNote

/-- Source table `fiveLimit`. -/
def fiveLimit : List JustObj :=
  [⟨0, 0, 11⟩, ⟨1, 1.12, 1⟩, ⟨2, 2.04, 6⟩, ⟨3, 3.16, 10⟩, ⟨4, 3.86, 2⟩,
   ⟨5, 4.98, 9⟩, ⟨6, 5.9, 3⟩, ⟨7, 7.02, 8⟩, ⟨8, 8.14, 4⟩, ⟨9, 8.84, 5⟩,
   ⟨10, 9.96, 7⟩, ⟨11, 10.88, 0⟩]

/-- Source table `sevenLimit`. -/
def sevenLimit : List JustObj :=
  [⟨0, 0, 11⟩, ⟨1, 1.12, 1⟩, ⟨2, 2.04, 6⟩, ⟨3, 3.16, 9⟩, ⟨4, 3.86, 3⟩,
   ⟨5, 4.98, 2⟩, ⟨6, 5.9, 10⟩, ⟨7, 7.02, 8⟩, ⟨8, 8.14, 4⟩, ⟨9, 8.84, 5⟩,
   ⟨10, 9.69, 7⟩, ⟨11, 10.88, 0⟩]

/-- Source table `elevenLimit`. -/
def elevenLimit : List JustObj :=
  [⟨0, 0, 11⟩, ⟨1, 1.12, 1⟩, ⟨2, 2.04, 9⟩, ⟨3, 3.16, 3⟩, ⟨4, 3.86, 2⟩,
   ⟨5, 4.98, 6⟩, ⟨6, 5.51, 10⟩, ⟨7, 7.02, 8⟩, ⟨8, 8.14, 4⟩, ⟨9, 8.84, 5⟩,
   ⟨10, 9.69, 7⟩, ⟨11, 10.88, 0⟩]

/-- Source table `thirteenLimit`. -/
def thirteenLimit : List JustObj :=
  [⟨0, 0, 11⟩, ⟨1, 1.12, 1⟩, ⟨2, 2.04, 9⟩, ⟨3, 3.16, 3⟩, ⟨4, 3.86, 2⟩,
   ⟨5, 4.98, 6⟩, ⟨6, 5.51, 10⟩, ⟨7, 7.02, 8⟩, ⟨8, 8.40, 4⟩, ⟨9, 8.84, 5⟩,
   ⟨10, 9.69, 7⟩, ⟨11, 10.88, 0⟩]

/-- Source `updateOrder`: updates a Note's order if `order` is higher. -/
def updateOrder (N : Note) (order : Int) : Note :=
  if order > N.order then { N with order := order } else N

/-- Source `createInterval`: creates an interval between two Notes, offsetting
the pitch of whichever has a lower order (ties adjust `Hi`).  The JS version
mutates the note objects in place; here the updated `(Hi, Lo)` pair is
returned. -/
def createInterval (Hi Lo : Note) (interval : ℚ) : Note × Note :=
  if Hi.order > Lo.order then (Hi, { Lo with justPitch := Hi.justPitch - interval })
  else ({ Hi with justPitch := Lo.justPitch + interval }, Lo)

/-- The guard `intervalIsHigherOrder` of the inner loop of `adjustPitches`:
`IntervalObj.order > HiNote.order || IntervalObj.order > LoNote.order`. -/
def adjustCond (sys : List JustObj) (arr : List Note) (lo hi : Nat) : Prop :=
  let LoNote := nget arr lo
  let HiNote := nget arr hi
  let IntervalObj := sys.getD ((HiNote.equalPitch - LoNote.equalPitch) % 12 |>.toNat) dObj
  IntervalObj.order > HiNote.order ∨ IntervalObj.order > LoNote.order

instance (sys : List JustObj) (arr : List Note) (lo hi : Nat) :
    Decidable (adjustCond sys arr lo hi) := by
  unfold adjustCond; exact inferInstance

/-- One execution of the body of the inner loop of `adjustPitches` on the pair
of indices `(lo, hi)`: look up the interval object for the chromatic interval,
and if its order beats one of the notes, create the just interval
(`createInterval`) and raise both orders (`updateOrder`). -/
def pairStep (sys : List JustObj) (lo hi : Nat) (arr : List Note) : List Note :=
  if adjustCond sys arr lo hi then
    let LoNote := nget arr lo
    let HiNote := nget arr hi
    let interval : Int := HiNote.equalPitch - LoNote.equalPitch
    let IntervalObj := sys.getD ((interval % 12).toNat) dObj
    let compoundJustInterval : ℚ :=
      (IntervalObj.justInterval - ((interval % 12 : Int) : ℚ)) + (interval : ℚ)
    let p := createInterval HiNote LoNote compoundJustInterval
    (arr.set lo (updateOrder p.2 IntervalObj.order)).set hi (updateOrder p.1 IntervalObj.order)
  else arr

/-- Source `adjustPitches`: compare all members of a sorted note array,
outer loop `lo = 0 .. numNotes-2`, inner loop `hi = lo+1 .. numNotes-1`. -/
def adjustPitches (sys : List JustObj) (arr : List Note) : List Note :=
  (List.range (arr.length - 1)).foldl
    (fun a lo =>
      (List.range' (lo + 1) (arr.length - (lo + 1))).foldl
        (fun b hi => pairStep sys lo hi b) a)
    arr

/-- Reset of a single note inside `resetJustPitches`. -/
def resetNote (N : Note) : Note :=
  { N with justPitch := (N.equalPitch : ℚ), order := -1 }

/-- Source `resetJustPitches`: resets all Note properties to default values. -/
def resetJustPitches (noteArr : List Note) : List Note := noteArr.map resetNote

/-- The comparator of `sortPitchesAscending`: ascending by `equalPitch`. -/
def noteLE (a b : Note) : Prop := a.equalPitch ≤ b.equalPitch

instance : DecidableRel noteLE := fun a b =>
  inferInstanceAs (Decidable (a.equalPitch ≤ b.equalPitch))

/-- Source `sortPitchesAscending`: stable ascending sort by `equalPitch`. -/
def sortPitchesAscending (noteArr : List Note) : List Note :=
  List.insertionSort noteLE noteArr

/-- Source `offsetAllPitches`: transposes all justPitches by an offset. -/
def offsetAllPitches (offset : ℚ) (noteArr : List Note) : List Note :=
  noteArr.map fun N => { N with justPitch := N.justPitch + offset }

/-- Source `meanAdjust`: shift all justPitches so that their mean equals the
mean of the equalPitches. -/
def meanAdjust (noteArr : List Note) : List Note :=
  let equalTotal : ℚ := (noteArr.map fun N => (N.equalPitch : ℚ)).sum
  let justTotal : ℚ := (noteArr.map Note.justPitch).sum
  let meanOffset : ℚ := (equalTotal - justTotal) / (noteArr.length : ℚ)
  offsetAllPitches meanOffset noteArr

/-- Source `fixedJustify`: reset, then (when more than one note is held)
sort, pairwise adjustment, and optional mean-centering. -/
def fixedJustify (sys : List JustObj) (meanMode : Bool) (noteArr : List Note) : List Note :=
  let l1 := resetJustPitches noteArr
  if 1 < l1.length then
    let l2 := sortPitchesAscending l1
    let l3 := adjustPitches sys l2
    if meanMode then meanAdjust l3 else l3
  else l1

/-- Source `justify`: run `fixedJustify` when at least one note is held. -/
def justify (sys : List JustObj) (meanMode : Bool) (noteArr : List Note) : List Note :=
  if noteArr.isEmpty then noteArr else fixedJustify sys meanMode noteArr

/-- Source `addNote`: push a fresh `Note` onto `heldNotes`. -/
def addNote (pitch velocity : Int) (l : List Note) : List Note :=
  l ++ [{ equalPitch := pitch, justPitch := (pitch : ℚ), order := -1, velocity := velocity }]

/-- Source `removeNote`: `heldNotes.splice(n, 1)`. -/
def removeNote (n : Nat) (l : List Note) : List Note := l.eraseIdx n

/-- The note-off branch of `noteHandler`:
`for (i = 0; i < heldNotes.length; i++) if (pitch === heldNotes[i].equalPitch) removeNote(i)`.
The index keeps advancing after a splice, so the element shifted into the
removed slot is skipped. -/
def noteOffScan (pitch : Int) (i : Nat) (l : List Note) : List Note :=
  if h : i < l.length then
    if (nget l i).equalPitch = pitch then noteOffScan pitch (i + 1) (removeNote i l)
    else noteOffScan pitch (i + 1) l
  else l
termination_by l.length - i
decreasing_by
  · have : (removeNote i l).length = l.length - 1 := List.length_eraseIdx_of_lt h
    omega
  · omega

/-- Source `noteHandler`: velocity `> 0` appends a note, otherwise the
removal scan runs. -/
def noteHandler (pitch velocity : Int) (l : List Note) : List Note :=
  if velocity > 0 then addNote pitch velocity l else noteOffScan pitch 0 l

/-- The outlet messages of the script (plus `consolePost` for the
`postError` console channel).  The space-joined list arguments are modelled
as Lean lists, preserving element order. -/
inductive Msg where
  | noteControl (pitch velocity : Int)
  | noteMessage (pitch : Int) (bend : ℚ)
  | justPitches (l : List ℚ)
  | equalPitches (l : List Int)
  | offsetOctave (l : List ℚ)
  | offsetList (l : List ℚ)
  | done
  | consolePost (s : String)
deriving DecidableEq

/-- The global mutable state of the script. -/
structure St where
  intensity : ℚ
  meanMode : Bool
  heldNotes : List Note
  justSystem : List JustObj
deriving DecidableEq

/-- Source `noteMsgOut`: bend is scaled by the current intensity. -/
def noteMsgOut (st : St) (pitch : Int) (bend : ℚ) : Msg :=
  Msg.noteMessage pitch (bend * st.intensity)

/-- Source `pitchListsOut`: the `justPitches` and `equalPitches` lists. -/
def pitchListsOut (st : St) : List Msg :=
  [Msg.justPitches (st.heldNotes.map fun N =>
      (N.justPitch - (N.equalPitch : ℚ)) * st.intensity + (N.equalPitch : ℚ)),
   Msg.equalPitches (st.heldNotes.map Note.equalPitch)]

/-- Source `offsetOctaveOut`: 12 slots indexed by `equalPitch % 12`,
last writer wins. -/
def offsetOctaveOut (st : St) : List Msg :=
  [Msg.offsetOctave (st.heldNotes.foldl
      (fun arr N => arr.set ((N.equalPitch % 12).toNat)
        ((N.justPitch - (N.equalPitch : ℚ)) * st.intensity))
      (List.replicate 12 0))]

/-- Source `offsetListOut`: per-note offsets in `heldNotes` order. -/
def offsetListOut (st : St) : List Msg :=
  [Msg.offsetList (st.heldNotes.map fun N =>
      (N.justPitch - (N.equalPitch : ℚ)) * st.intensity)]

/-- Source `justCompOut`. -/
def justCompOut (st : St) : List Msg :=
  pitchListsOut st ++ offsetOctaveOut st ++ offsetListOut st

/-- Source `allNoteMsgOut`: a `noteMessage` per held note, then `justCompOut`. -/
def allNoteMsgOut (st : St) : List Msg :=
  (st.heldNotes.map fun obj =>
    noteMsgOut st obj.equalPitch (obj.justPitch - (obj.equalPitch : ℚ))) ++ justCompOut st

/-- Source `noteIn`, the main entry point: thru control message, note
handling, full retune, pitch messages, `done`. -/
def noteIn (pitch velocity : Int) (st : St) : St × List Msg :=
  let held1 := noteHandler pitch velocity st.heldNotes
  let held2 := justify st.justSystem st.meanMode held1
  let st2 : St := { st with heldNotes := held2 }
  (st2, Msg.noteControl pitch velocity :: (allNoteMsgOut st2 ++ [Msg.done]))

/-- The error text posted by `setLimit` for an unknown limit. -/
def limitErr : String := "Tuning not available.\nValid arguments: 5, 7, 11, 13"

/-- The error text posted by `setMeanMode` for an invalid flag. -/
def meanErr : String := "Not valid.\nValid arguments: 1 or true, 0 or false"

/-- Source `setLimit`: select a tuning table (or post an error and keep the
current one), then `justify()` in either case. -/
def setLimit (val : Int) (st : St) : St × List Msg :=
  let sysErr : List JustObj × List Msg :=
    if val = 5 then (fiveLimit, [])
    else if val = 7 then (sevenLimit, [])
    else if val = 11 then (elevenLimit, [])
    else if val = 13 then (thirteenLimit, [])
    else (st.justSystem, [Msg.consolePost limitErr])
  let st1 : St := { st with justSystem := sysErr.1 }
  ({ st1 with heldNotes := justify st1.justSystem st1.meanMode st1.heldNotes }, sysErr.2)

/-- Source `setMeanMode`.  The JS argument is compared with `==` against
`false` and `true`; for the numeric messages Max sends this means `0` sets
the mode to false, `1` sets it to true, and anything else posts an error. -/
def setMeanMode (val : Int) (st : St) : St × List Msg :=
  if val = 0 then ({ st with meanMode := false }, [])
  else if val = 1 then ({ st with meanMode := true }, [])
  else (st, [Msg.consolePost meanErr])

/-- Source `setIntensity`: store the (unclamped) intensity, re-run
`adjustPitches` on the held notes without any reset, re-emit all note
messages. -/
def setIntensity (val : ℚ) (st : St) : St × List Msg :=
  let st1 : St := { st with intensity := val }
  let st2 : St := { st1 with heldNotes := adjustPitches st1.justSystem st1.heldNotes }
  (st2, allNoteMsgOut st2)

/-- Source `allNotesOff`: a note-off control message per held note, then
clear the array. -/
def allNotesOff (st : St) : St × List Msg :=
  ({ st with heldNotes := [] },
   st.heldNotes.map fun obj => Msg.noteControl obj.equalPitch 0)

/-- The state after script load: `intensity = 0.75`, `meanMode = true`,
no held notes, and `setLimit(5)` already executed. -/
def initSt : St :=
  { intensity := 0.75, meanMode := true, heldNotes := [], justSystem := fiveLimit }

/-! ### Indexed reads: basic lemmas -/

theorem nget_nil (i : Nat) : nget [] i = dNote := rfl

theorem nget_cons_zero (x : Note) (t : List Note) : nget (x :: t) 0 = x := rfl

theorem nget_cons_succ (x : Note) (t : List Note) (i : Nat) :
    nget (x :: t) (i + 1) = nget t i := rfl

theorem nget_set (l : List Note) (i : Nat) (x : Note) (j : Nat) :
    nget (l.set i x) j = if i = j ∧ i < l.length then x else nget l j := by
  induction l generalizing i j with
  | nil => simp [nget]
  | cons a t ih =>
    cases i with
    | zero =>
      cases j with
      | zero => simp [nget]
      | succ j => simp [nget]
    | succ i =>
      cases j with
      | zero => simp [nget]
      | succ j =>
        simp only [List.set_cons_succ, nget_cons_succ, ih, List.length_cons]
        have hiff : (i = j ∧ i < t.length) ↔ (i + 1 = j + 1 ∧ i + 1 < t.length + 1) := by omega
        by_cases h : i = j ∧ i < t.length
        · rw [if_pos h, if_pos (hiff.mp h)]
        · rw [if_neg h, if_neg (fun hc => h (hiff.mpr hc))]

theorem ext_nget {a b : List Note} (hl : a.length = b.length)
    (h : ∀ i, nget a i = nget b i) : a = b := by
  induction a generalizing b with
  | nil =>
    cases b with
    | nil => rfl
    | cons y u => simp at hl
  | cons x t ih =>
    cases b with
    | nil => simp at hl
    | cons y u =>
      have h0 := h 0
      rw [nget_cons_zero, nget_cons_zero] at h0
      have ht : t = u := by
        refine ih ?_ fun i => ?_
        · simpa using hl
        · have := h (i + 1)
          rwa [nget_cons_succ, nget_cons_succ] at this
      rw [h0, ht]

/-! ### Field lemmas for the pairwise step -/

theorem updateOrder_equalPitch (N : Note) (o : Int) :
    (updateOrder N o).equalPitch = N.equalPitch := by
  unfold updateOrder; split <;> rfl

theorem updateOrder_velocity (N : Note) (o : Int) :
    (updateOrder N o).velocity = N.velocity := by
  unfold updateOrder; split <;> rfl

theorem updateOrder_order (N : Note) (o : Int) :
    (updateOrder N o).order = max N.order o := by
  unfold updateOrder; split <;> rename_i h <;> simp <;> omega

theorem createInterval_fst_equalPitch (Hi Lo : Note) (q : ℚ) :
    ((createInterval Hi Lo q).1).equalPitch = Hi.equalPitch := by
  unfold createInterval; split <;> rfl

theorem createInterval_fst_velocity (Hi Lo : Note) (q : ℚ) :
    ((createInterval Hi Lo q).1).velocity = Hi.velocity := by
  unfold createInterval; split <;> rfl

theorem createInterval_fst_order (Hi Lo : Note) (q : ℚ) :
    ((createInterval Hi Lo q).1).order = Hi.order := by
  unfold createInterval; split <;> rfl

theorem createInterval_snd_equalPitch (Hi Lo : Note) (q : ℚ) :
    ((createInterval Hi Lo q).2).equalPitch = Lo.equalPitch := by
  unfold createInterval; split <;> rfl

theorem createInterval_snd_velocity (Hi Lo : Note) (q : ℚ) :
    ((createInterval Hi Lo q).2).velocity = Lo.velocity := by
  unfold createInterval; split <;> rfl

theorem createInterval_snd_order (Hi Lo : Note) (q : ℚ) :
    ((createInterval Hi Lo q).2).order = Lo.order := by
  unfold createInterval; split <;> rfl

/-! ### The `preserves` relation: a pass step keeps length, `equalPitch` and
`velocity` and can only raise the orders. -/

def preserves (a b : List Note) : Prop :=
  a.length = b.length ∧ ∀ i,
    (nget a i).equalPitch = (nget b i).equalPitch ∧
    (nget a i).velocity = (nget b i).velocity ∧
    (nget a i).order ≤ (nget b i).order

theorem preserves_refl (a : List Note) : preserves a a :=
  ⟨rfl, fun _ => ⟨rfl, rfl, le_refl _⟩⟩

theorem preserves_trans {a b c : List Note} (h1 : preserves a b) (h2 : preserves b c) :
    preserves a c := by
  obtain ⟨hl1, h1⟩ := h1
  obtain ⟨hl2, h2⟩ := h2
  refine ⟨hl1.trans hl2, fun i => ?_⟩
  obtain ⟨e1, v1, o1⟩ := h1 i
  obtain ⟨e2, v2, o2⟩ := h2 i
  exact ⟨e1.trans e2, v1.trans v2, o1.trans o2⟩

theorem length_pairStep (sys : List JustObj) (lo hi : Nat) (arr : List Note) :
    (pairStep sys lo hi arr).length = arr.length := by
  unfold pairStep; split <;> simp

theorem pairStep_preserves (sys : List JustObj) (lo hi : Nat) (arr : List Note) :
    preserves arr (pairStep sys lo hi arr) := by
  unfold pairStep
  split
  · refine ⟨by simp, fun i => ?_⟩
    rw [nget_set, nget_set]
    by_cases hhi : hi = i ∧ hi < (arr.set lo (updateOrder
        (createInterval (nget arr hi) (nget arr lo)
          ((sys.getD (((nget arr hi).equalPitch - (nget arr lo).equalPitch) % 12).toNat
              dObj).justInterval -
            ((((nget arr hi).equalPitch - (nget arr lo).equalPitch) % 12 : Int) : ℚ) +
            (((nget arr hi).equalPitch - (nget arr lo).equalPitch : Int) : ℚ))).2
        (sys.getD (((nget arr hi).equalPitch - (nget arr lo).equalPitch) % 12).toNat
          dObj).order)).length
    · rw [if_pos hhi]
      obtain ⟨rfl, _⟩ := hhi
      refine ⟨?_, ?_, ?_⟩
      · rw [updateOrder_equalPitch, createInterval_fst_equalPitch]
      · rw [updateOrder_velocity, createInterval_fst_velocity]
      · rw [updateOrder_order, createInterval_fst_order]
        exact le_max_left _ _
    · rw [if_neg hhi]
      by_cases hlo : lo = i ∧ lo < arr.length
      · rw [if_pos hlo]
        obtain ⟨rfl, _⟩ := hlo
        refine ⟨?_, ?_, ?_⟩
        · rw [updateOrder_equalPitch, createInterval_snd_equalPitch]
        · rw [updateOrder_velocity, createInterval_snd_velocity]
        · rw [updateOrder_order, createInterval_snd_order]
          exact le_max_left _ _
      · rw [if_neg hlo]
        exact ⟨rfl, rfl, le_refl _⟩
  · exact preserves_refl _

theorem foldl_preserves {β : Type} (f : List Note → β → List Note)
    (hf : ∀ a x, preserves a (f a x)) :
    ∀ (L : List β) (a : List Note), preserves a (L.foldl f a) := by
  intro L
  induction L with
  | nil => exact fun a => preserves_refl a
  | cons x t ih =>
    intro a
    exact preserves_trans (hf a x) (ih (f a x))

theorem adjustPitches_preserves (sys : List JustObj) (arr : List Note) :
    preserves arr (adjustPitches sys arr) := by
  unfold adjustPitches
  exact foldl_preserves _
    (fun a lo => foldl_preserves _ (fun b hi => pairStep_preserves sys lo hi b) _ a) _ arr

theorem length_adjustPitches (sys : List JustObj) (arr : List Note) :
    (adjustPitches sys arr).length = arr.length :=
  ((adjustPitches_preserves sys arr).1).symm

/-! ### The pair iteration of `adjustPitches` as a flat fold -/

/-- The index pairs visited by the two nested loops of `adjustPitches`,
in visit order. -/
def pairIdxs (n : Nat) : List (Nat × Nat) :=
  (List.range (n - 1)).flatMap fun lo =>
    (List.range' (lo + 1) (n - (lo + 1))).map fun hi => (lo, hi)

/-- The loop body of `adjustPitches` as a fold step over index pairs. -/
def stepFn (sys : List JustObj) (x : List Note) (q : Nat × Nat) : List Note :=
  pairStep sys q.1 q.2 x

theorem stepFn_preserves (sys : List JustObj) (x : List Note) (q : Nat × Nat) :
    preserves x (stepFn sys x q) :=
  pairStep_preserves sys q.1 q.2 x

theorem length_stepFn (sys : List JustObj) (x : List Note) (q : Nat × Nat) :
    (stepFn sys x q).length = x.length :=
  length_pairStep sys q.1 q.2 x

theorem foldl_flatMap {α β γ : Type} (g : α → β → α) (f : γ → List β) :
    ∀ (L : List γ) (a : α),
      (L.flatMap f).foldl g a = L.foldl (fun x c => (f c).foldl g x) a := by
  intro L
  induction L with
  | nil => intro a; rfl
  | cons x t ih =>
    intro a
    rw [List.flatMap_cons, List.foldl_append, List.foldl_cons, ih]

theorem adjustPitches_eq_foldl (sys : List JustObj) (arr : List Note) :
    adjustPitches sys arr = (pairIdxs arr.length).foldl (stepFn sys) arr := by
  unfold adjustPitches pairIdxs
  rw [foldl_flatMap]
  congr 1
  funext a lo
  rw [List.foldl_map]
  rfl

theorem mem_pairIdxs {n lo hi : Nat} : (lo, hi) ∈ pairIdxs n ↔ lo < hi ∧ hi < n := by
  simp only [pairIdxs, List.mem_flatMap, List.mem_map, List.mem_range, List.mem_range',
    Prod.mk.injEq]
  constructor
  · rintro ⟨a, ha, b, ⟨i, hi1, rfl⟩, rfl, rfl⟩
    omega
  · rintro ⟨h1, h2⟩
    exact ⟨lo, by omega, hi, ⟨hi - (lo + 1), by omega, by omega⟩, rfl, rfl⟩

/-! ### Stability: after `adjustPitches` no pair satisfies the guard again -/

theorem adjustCond_mono {sys : List JustObj} {a b : List Note} (h : preserves a b)
    {lo hi : Nat} (hc : ¬ adjustCond sys a lo hi) : ¬ adjustCond sys b lo hi := by
  simp only [adjustCond] at hc ⊢
  obtain ⟨-, hp⟩ := h
  obtain ⟨elo, -, olo⟩ := hp lo
  obtain ⟨ehi, -, ohi⟩ := hp hi
  rw [← elo, ← ehi]
  push_neg at hc ⊢
  exact ⟨le_trans hc.1 ohi, le_trans hc.2 olo⟩

theorem adjustCond_set_pair {sys : List JustObj} {arr : List Note} {lo hi : Nat}
    (hlh : lo < hi) (hh : hi < arr.length) (X Y : Note)
    (hX : X.equalPitch = (nget arr lo).equalPitch)
    (hY : Y.equalPitch = (nget arr hi).equalPitch)
    (hXo : (sys.getD (((nget arr hi).equalPitch - (nget arr lo).equalPitch) % 12).toNat
        dObj).order ≤ X.order)
    (hYo : (sys.getD (((nget arr hi).equalPitch - (nget arr lo).equalPitch) % 12).toNat
        dObj).order ≤ Y.order) :
    ¬ adjustCond sys ((arr.set lo X).set hi Y) lo hi := by
  have h1 : nget ((arr.set lo X).set hi Y) hi = Y := by
    rw [nget_set]
    exact if_pos ⟨rfl, by simpa using hh⟩
  have h2 : nget ((arr.set lo X).set hi Y) lo = X := by
    rw [nget_set, if_neg (by omega), nget_set]
    exact if_pos ⟨rfl, by omega⟩
  simp only [adjustCond]
  rw [h1, h2, hX, hY]
  push_neg
  exact ⟨hYo, hXo⟩

theorem pairStep_kills_cond {sys : List JustObj} {lo hi : Nat} {arr : List Note}
    (hlh : lo < hi) (hh : hi < arr.length) :
    ¬ adjustCond sys (pairStep sys lo hi arr) lo hi := by
  unfold pairStep
  split
  · exact adjustCond_set_pair hlh hh _ _
      (by rw [updateOrder_equalPitch, createInterval_snd_equalPitch])
      (by rw [updateOrder_equalPitch, createInterval_fst_equalPitch])
      (by rw [updateOrder_order]; exact le_max_right _ _)
      (by rw [updateOrder_order]; exact le_max_right _ _)
  · assumption

theorem stepFn_kills_cond {sys : List JustObj} {a : List Note} {q : Nat × Nat}
    (hlh : q.1 < q.2) (hh : q.2 < a.length) :
    ¬ adjustCond sys (stepFn sys a q) q.1 q.2 :=
  pairStep_kills_cond hlh hh

theorem foldl_stepFn_stable (sys : List JustObj) :
    ∀ (L : List (Nat × Nat)) (a : List Note),
      (∀ p ∈ L, p.1 < p.2 ∧ p.2 < a.length) →
      ∀ p ∈ L, ¬ adjustCond sys (L.foldl (stepFn sys) a) p.1 p.2 := by
  intro L
  induction L with
  | nil => intro a _ p hp; cases hp
  | cons q t ih =>
    intro a hb p hp
    rw [List.foldl_cons]
    rcases List.mem_cons.mp hp with rfl | hpt
    · have hq := hb p (List.mem_cons_self p t)
      exact adjustCond_mono
        (foldl_preserves (stepFn sys) (stepFn_preserves sys) t (stepFn sys a p))
        (stepFn_kills_cond hq.1 hq.2)
    · refine ih (stepFn sys a q) (fun r hr => ?_) p hpt
      have := hb r (List.mem_cons_of_mem _ hr)
      rwa [length_stepFn]

/-- `stable sys a`: no pair of in-range indices satisfies the adjustment
guard; re-running `adjustPitches` on such an array is a no-op. -/
def stable (sys : List JustObj) (a : List Note) : Prop :=
  ∀ lo hi, lo < hi → hi < a.length → ¬ adjustCond sys a lo hi

theorem adjustPitches_stable (sys : List JustObj) (arr : List Note) :
    stable sys (adjustPitches sys arr) := by
  intro lo hi h1 h2
  rw [length_adjustPitches] at h2
  rw [adjustPitches_eq_foldl]
  exact foldl_stepFn_stable sys (pairIdxs arr.length) arr
    (fun p hp => mem_pairIdxs.mp hp) (lo, hi) (mem_pairIdxs.mpr ⟨h1, h2⟩)

theorem foldl_stepFn_id (sys : List JustObj) :
    ∀ (L : List (Nat × Nat)) (a : List Note),
      (∀ p ∈ L, ¬ adjustCond sys a p.1 p.2) →
      L.foldl (stepFn sys) a = a := by
  intro L
  induction L with
  | nil => intro a _; rfl
  | cons q t ih =>
    intro a h
    rw [List.foldl_cons]
    have hq : stepFn sys a q = a := by
      unfold stepFn pairStep
      exact if_neg (h q (List.mem_cons_self _ _))
    rw [hq]
    exact ih a fun p hp => h p (List.mem_cons_of_mem _ hp)

theorem adjustPitches_of_stable {sys : List JustObj} {a : List Note}
    (h : stable sys a) : adjustPitches sys a = a := by
  rw [adjustPitches_eq_foldl]
  refine foldl_stepFn_id sys _ a fun p hp => ?_
  have hb : p.1 < p.2 ∧ p.2 < a.length := mem_pairIdxs.mp hp
  exact h p.1 p.2 hb.1 hb.2

/-! ### Transporting stability across `meanAdjust` -/

theorem nget_map_lt (f : Note → Note) {a : List Note} {i : Nat} (h : i < a.length) :
    nget (a.map f) i = f (nget a i) := by
  induction a generalizing i with
  | nil => simp at h
  | cons x t ih =>
    cases i with
    | zero => rfl
    | succ i =>
      rw [List.map_cons, nget_cons_succ, nget_cons_succ]
      exact ih (by simpa using h)

theorem nget_of_le {a : List Note} {i : Nat} (h : a.length ≤ i) : nget a i = dNote := by
  induction a generalizing i with
  | nil => rfl
  | cons x t ih =>
    cases i with
    | zero => simp at h
    | succ i =>
      rw [nget_cons_succ]
      exact ih (by simpa using h)

theorem nget_offsetAll_equalPitch (off : ℚ) (a : List Note) (i : Nat) :
    (nget (offsetAllPitches off a) i).equalPitch = (nget a i).equalPitch := by
  by_cases h : i < a.length
  · rw [offsetAllPitches, nget_map_lt _ h]
  · rw [nget_of_le (by simp [offsetAllPitches]; omega), nget_of_le (by omega)]

theorem nget_offsetAll_order (off : ℚ) (a : List Note) (i : Nat) :
    (nget (offsetAllPitches off a) i).order = (nget a i).order := by
  by_cases h : i < a.length
  · rw [offsetAllPitches, nget_map_lt _ h]
  · rw [nget_of_le (by simp [offsetAllPitches]; omega), nget_of_le (by omega)]

theorem adjustCond_offsetAll (sys : List JustObj) (off : ℚ) (a : List Note) (lo hi : Nat) :
    adjustCond sys (offsetAllPitches off a) lo hi ↔ adjustCond sys a lo hi := by
  simp only [adjustCond]
  rw [nget_offsetAll_equalPitch, nget_offsetAll_equalPitch,
    nget_offsetAll_order, nget_offsetAll_order]

theorem stable_meanAdjust {sys : List JustObj} {a : List Note} (h : stable sys a) :
    stable sys (meanAdjust a) := by
  intro lo hi h1 h2
  unfold meanAdjust
  rw [adjustCond_offsetAll]
  apply h lo hi h1
  have : (meanAdjust a).length = a.length := by simp [meanAdjust, offsetAllPitches]
  omega

theorem stable_small {sys : List JustObj} {a : List Note} (h : a.length ≤ 1) :
    stable sys a := by
  intro lo hi h1 h2
  omega

theorem fixedJustify_stable (sys : List JustObj) (mm : Bool) (l : List Note) :
    stable sys (fixedJustify sys mm l) := by
  simp only [fixedJustify]
  split
  · split
    · exact stable_meanAdjust (adjustPitches_stable sys _)
    · exact adjustPitches_stable sys _
  · rename_i hlen
    exact stable_small (by omega)

theorem adjustPitches_fixedJustify (sys : List JustObj) (mm : Bool) (l : List Note) :
    adjustPitches sys (fixedJustify sys mm l) = fixedJustify sys mm l :=
  adjustPitches_of_stable (fixedJustify_stable sys mm l)

/-! ### Sorting and reset facts -/

instance : IsTotal Note noteLE :=
  ⟨fun a b => Int.le_total a.equalPitch b.equalPitch⟩

instance : IsTrans Note noteLE :=
  ⟨fun _ _ _ hab hbc => le_trans hab hbc⟩

theorem length_resetJustPitches (l : List Note) :
    (resetJustPitches l).length = l.length := by
  simp [resetJustPitches]

theorem length_sortPitchesAscending (l : List Note) :
    (sortPitchesAscending l).length = l.length := by
  simp [sortPitchesAscending, List.length_insertionSort]

theorem length_offsetAllPitches (off : ℚ) (l : List Note) :
    (offsetAllPitches off l).length = l.length := by
  simp [offsetAllPitches]

theorem length_meanAdjust (l : List Note) : (meanAdjust l).length = l.length := by
  simp [meanAdjust, offsetAllPitches]

theorem length_fixedJustify (sys : List JustObj) (mm : Bool) (l : List Note) :
    (fixedJustify sys mm l).length = l.length := by
  simp only [fixedJustify]
  split
  · split
    · rw [length_meanAdjust, length_adjustPitches, length_sortPitchesAscending,
        length_resetJustPitches]
    · rw [length_adjustPitches, length_sortPitchesAscending, length_resetJustPitches]
  · rw [length_resetJustPitches]

theorem nget_eq_getElem {a : List Note} {i : Nat} (h : i < a.length) : nget a i = a[i] := by
  rw [nget, List.getD_eq_getElem?_getD, List.getElem?_eq_getElem h, Option.getD_some]

theorem map_eq_of_preserves {α : Type} (f : Note → α) {a b : List Note}
    (h : preserves a b)
    (hf : ∀ x y : Note, x.equalPitch = y.equalPitch → x.velocity = y.velocity → f x = f y) :
    a.map f = b.map f := by
  obtain ⟨hl, hp⟩ := h
  apply List.ext_getElem (by simp [hl])
  intro i h1 h2
  rw [List.getElem_map, List.getElem_map]
  rw [List.length_map] at h1 h2
  obtain ⟨he, hv, -⟩ := hp i
  rw [nget_eq_getElem h1, nget_eq_getElem h2] at he hv
  exact hf _ _ he hv

theorem resetNote_congr {x y : Note} (he : x.equalPitch = y.equalPitch)
    (hv : x.velocity = y.velocity) : resetNote x = resetNote y := by
  cases x; cases y; simp_all [resetNote]

theorem resetJustPitches_eq_of_preserves {a b : List Note} (h : preserves a b) :
    resetJustPitches a = resetJustPitches b :=
  map_eq_of_preserves resetNote h fun _ _ he hv => resetNote_congr he hv

theorem mem_resetJustPitches_props {l : List Note} {x : Note}
    (hx : x ∈ resetJustPitches l) :
    x.justPitch = (x.equalPitch : ℚ) ∧ x.order = -1 := by
  simp only [resetJustPitches, List.mem_map] at hx
  obtain ⟨y, -, rfl⟩ := hx
  simp [resetNote]

theorem resetNote_id_of_props {x : Note} (h1 : x.justPitch = (x.equalPitch : ℚ))
    (h2 : x.order = -1) : resetNote x = x := by
  cases x; simp_all [resetNote]

theorem reset_idem (l : List Note) :
    resetJustPitches (resetJustPitches l) = resetJustPitches l := by
  simp only [resetJustPitches, List.map_map]
  apply List.map_congr_left
  intro x _
  cases x; rfl

theorem sortPitchesAscending_perm (l : List Note) : List.Perm (sortPitchesAscending l) l :=
  List.perm_insertionSort noteLE l

theorem sorted_sortPitchesAscending (l : List Note) :
    List.Sorted noteLE (sortPitchesAscending l) :=
  List.sorted_insertionSort noteLE l

theorem sortPitchesAscending_of_sorted {l : List Note} (h : List.Sorted noteLE l) :
    sortPitchesAscending l = l :=
  List.Sorted.insertionSort_eq h

theorem mem_sortReset_props {l : List Note} {x : Note}
    (hx : x ∈ sortPitchesAscending (resetJustPitches l)) :
    x.justPitch = (x.equalPitch : ℚ) ∧ x.order = -1 :=
  mem_resetJustPitches_props ((sortPitchesAscending_perm (resetJustPitches l)).mem_iff.mp hx)

theorem reset_sortReset (l : List Note) :
    resetJustPitches (sortPitchesAscending (resetJustPitches l)) =
      sortPitchesAscending (resetJustPitches l) := by
  unfold resetJustPitches
  rw [show sortPitchesAscending (List.map resetNote l) =
      List.map id (sortPitchesAscending (List.map resetNote l)) by rw [List.map_id]]
  rw [List.map_map]
  apply List.map_congr_left
  intro x hx
  simp only [List.map_id] at hx
  obtain ⟨h1, h2⟩ := mem_sortReset_props (l := l) (by simpa [resetJustPitches] using hx)
  simp [Function.comp, resetNote_id_of_props h1 h2]

theorem preserves_of_map (f : Note → Note)
    (hf : ∀ x : Note, (f x).equalPitch = x.equalPitch ∧ (f x).velocity = x.velocity ∧
      x.order ≤ (f x).order) (a : List Note) : preserves a (a.map f) := by
  refine ⟨by simp, fun i => ?_⟩
  by_cases h : i < a.length
  · rw [nget_map_lt _ h]
    exact ⟨(hf _).1.symm, (hf _).2.1.symm, (hf _).2.2⟩
  · rw [nget_of_le (by omega), nget_of_le (by simp; omega)]
    exact ⟨rfl, rfl, le_refl _⟩

theorem meanAdjust_preserves (a : List Note) : preserves a (meanAdjust a) := by
  have h : meanAdjust a = a.map fun N =>
      { N with justPitch := N.justPitch +
          ((a.map fun N => (N.equalPitch : ℚ)).sum - (a.map Note.justPitch).sum) /
            (a.length : ℚ) } := rfl
  rw [h]
  exact preserves_of_map
    (fun N => { N with justPitch := N.justPitch +
        ((a.map fun N => (N.equalPitch : ℚ)).sum - (a.map Note.justPitch).sum) /
          (a.length : ℚ) })
    (fun x => ⟨rfl, rfl, le_refl _⟩) a

/-- The result of the `heldNotes.length > 1` branch of `fixedJustify` keeps
the element-wise `equalPitch`, `velocity` (and can only raise orders) of the
sorted reset array. -/
theorem fixedJustify_preserves_sortReset (sys : List JustObj) (mm : Bool) (l : List Note)
    (hlen : 1 < l.length) :
    preserves (sortPitchesAscending (resetJustPitches l)) (fixedJustify sys mm l) := by
  have h1 : fixedJustify sys mm l =
      if mm then meanAdjust (adjustPitches sys (sortPitchesAscending (resetJustPitches l)))
      else adjustPitches sys (sortPitchesAscending (resetJustPitches l)) := by
    simp only [fixedJustify]
    rw [if_pos (by rw [length_resetJustPitches]; exact hlen)]
  rw [h1]
  split
  · exact preserves_trans (adjustPitches_preserves sys _) (meanAdjust_preserves _)
  · exact adjustPitches_preserves sys _

/-- `fixedJustify` reads its argument only through `resetJustPitches`. -/
theorem fixedJustify_congr_reset {sys : List JustObj} {mm : Bool} {a b : List Note}
    (h : resetJustPitches a = resetJustPitches b) :
    fixedJustify sys mm a = fixedJustify sys mm b := by
  simp only [fixedJustify, h]

/-- Idempotence of `fixedJustify`. -/
theorem fixedJustify_idem (sys : List JustObj) (mm : Bool) (l : List Note) :
    fixedJustify sys mm (fixedJustify sys mm l) = fixedJustify sys mm l := by
  by_cases hlen : 1 < l.length
  · have hpres := fixedJustify_preserves_sortReset sys mm l hlen
    have hresets : resetJustPitches (sortPitchesAscending (resetJustPitches l)) =
        sortPitchesAscending (resetJustPitches l) := reset_sortReset l
    have hresetr : resetJustPitches (fixedJustify sys mm l) =
        sortPitchesAscending (resetJustPitches l) := by
      rw [← resetJustPitches_eq_of_preserves hpres, hresets]
    have hsorts : sortPitchesAscending (sortPitchesAscending (resetJustPitches l)) =
        sortPitchesAscending (resetJustPitches l) :=
      sortPitchesAscending_of_sorted (sorted_sortPitchesAscending _)
    have h1 : fixedJustify sys mm l =
        if mm then meanAdjust (adjustPitches sys (sortPitchesAscending (resetJustPitches l)))
        else adjustPitches sys (sortPitchesAscending (resetJustPitches l)) := by
      simp only [fixedJustify]
      rw [if_pos (by rw [length_resetJustPitches]; exact hlen)]
    have step1 : fixedJustify sys mm (fixedJustify sys mm l) =
        fixedJustify sys mm (sortPitchesAscending (resetJustPitches l)) :=
      fixedJustify_congr_reset (hresetr.trans hresets.symm)
    have step2 : fixedJustify sys mm (sortPitchesAscending (resetJustPitches l)) =
        if mm then meanAdjust (adjustPitches sys (sortPitchesAscending (resetJustPitches l)))
        else adjustPitches sys (sortPitchesAscending (resetJustPitches l)) := by
      simp only [fixedJustify]
      rw [hresets,
        if_pos (by rw [length_sortPitchesAscending, length_resetJustPitches]; exact hlen),
        hsorts]
    rw [step1, step2, ← h1]
  · have h1 : fixedJustify sys mm l = resetJustPitches l := by
      simp only [fixedJustify]
      rw [if_neg (by rw [length_resetJustPitches]; exact hlen)]
    rw [h1]
    simp only [fixedJustify, reset_idem]
    rw [if_neg (by rw [length_resetJustPitches]; exact hlen)]

theorem isEmpty_fixedJustify (sys : List JustObj) (mm : Bool) (l : List Note) :
    (fixedJustify sys mm l).isEmpty = l.isEmpty := by
  rcases l with _ | ⟨x, t⟩
  · rfl
  · have h : (fixedJustify sys mm (x :: t)).length = (x :: t).length :=
      length_fixedJustify sys mm (x :: t)
    rcases hfj : fixedJustify sys mm (x :: t) with _ | ⟨y, u⟩
    · rw [hfj] at h; simp at h
    · rfl

theorem justify_idem_helper (sys : List JustObj) (mm : Bool) (l : List Note) :
    justify sys mm (justify sys mm l) = justify sys mm l := by
  unfold justify
  by_cases h : l.isEmpty
  · rw [if_pos h, if_pos h]
  · rw [if_neg h, if_neg (by rw [isEmpty_fixedJustify]; exact h), fixedJustify_idem]

/-! ### Sums for the mean-centering invariant -/

theorem sum_map_add_const (l : List Note) (f : Note → ℚ) (c : ℚ) :
    (l.map fun N => f N + c).sum = (l.map f).sum + l.length * c := by
  induction l with
  | nil => simp
  | cons x t ih =>
    simp only [List.map_cons, List.sum_cons, ih, List.length_cons]
    push_cast
    ring

theorem sum_justPitch_meanAdjust (a : List Note) (h : a.length ≠ 0) :
    ((meanAdjust a).map Note.justPitch).sum = (a.map fun N => (N.equalPitch : ℚ)).sum := by
  have hm : (meanAdjust a).map Note.justPitch =
      a.map fun N => N.justPitch +
        ((a.map fun N => (N.equalPitch : ℚ)).sum - (a.map Note.justPitch).sum) /
          (a.length : ℚ) := by
    rw [show meanAdjust a = a.map (fun N => { N with justPitch := N.justPitch +
        ((a.map fun N => (N.equalPitch : ℚ)).sum - (a.map Note.justPitch).sum) /
          (a.length : ℚ) }) from rfl, List.map_map]
    rfl
  rw [hm, sum_map_add_const]
  have hne : (a.length : ℚ) ≠ 0 := by exact_mod_cast h
  field_simp

theorem sum_map_equalPitch_eq {a b : List Note} (h : preserves a b) :
    (a.map fun N => (N.equalPitch : ℚ)).sum = (b.map fun N => (N.equalPitch : ℚ)).sum := by
  rw [map_eq_of_preserves (fun N => ((N.equalPitch : ℚ))) h
    fun x y he hv => by exact congrArg (fun z : Int => (z : ℚ)) he]

theorem sum_equal_reset (l : List Note) :
    ((resetJustPitches l).map fun N => (N.equalPitch : ℚ)).sum =
      (l.map fun N => (N.equalPitch : ℚ)).sum := by
  rw [resetJustPitches, List.map_map]
  rfl

/-- With `meanMode` on, `fixedJustify` restores the sum of the original
pitches exactly (over ℚ). -/
theorem sum_fixedJustify_meanMode (sys : List JustObj) (l : List Note) :
    ((fixedJustify sys true l).map Note.justPitch).sum =
      (l.map fun N => (N.equalPitch : ℚ)).sum := by
  by_cases hlen : 1 < l.length
  · have h1 : fixedJustify sys true l =
        meanAdjust (adjustPitches sys (sortPitchesAscending (resetJustPitches l))) := by
      simp only [fixedJustify]
      rw [if_pos (by rw [length_resetJustPitches]; exact hlen), if_pos trivial]
    rw [h1, sum_justPitch_meanAdjust _
      (by rw [length_adjustPitches, length_sortPitchesAscending, length_resetJustPitches]; omega)]
    rw [← sum_map_equalPitch_eq
      (adjustPitches_preserves sys (sortPitchesAscending (resetJustPitches l)))]
    rw [((sortPitchesAscending_perm (resetJustPitches l)).map
      (fun N => ((N.equalPitch : ℚ)))).sum_eq]
    exact sum_equal_reset l
  · have h1 : fixedJustify sys true l = resetJustPitches l := by
      simp only [fixedJustify]
      rw [if_neg (by rw [length_resetJustPitches]; exact hlen)]
    rw [h1, resetJustPitches, List.map_map]
    rfl

/-! ### Structural characterisation of the note-off removal scan -/

/-- `noteOffScan pitch 0` in structural form: a match is removed, and the
element that shifts into its slot is skipped (the `y` below survives
unexamined). -/
def noteOffS (pitch : Int) : List Note → List Note
  | [] => []
  | [x] => if x.equalPitch = pitch then [] else [x]
  | x :: y :: t =>
    if x.equalPitch = pitch then y :: noteOffS pitch t
    else x :: noteOffS pitch (y :: t)

theorem noteOffScan_nil (pitch : Int) (i : Nat) : noteOffScan pitch i [] = [] := by
  rw [noteOffScan]
  simp

theorem noteOffScan_cons (pitch : Int) :
    ∀ (n : Nat) (l : List Note) (i : Nat) (x : Note), l.length - i ≤ n →
      noteOffScan pitch (i + 1) (x :: l) = x :: noteOffScan pitch i l := by
  intro n
  induction n with
  | zero =>
    intro l i x h
    rw [noteOffScan, dif_neg (by simp; omega)]
    rw [noteOffScan, dif_neg (by omega)]
  | succ n ih =>
    intro l i x h
    by_cases hc : i < l.length
    · rw [noteOffScan, dif_pos (by simp; omega)]
      by_cases hm : (nget l i).equalPitch = pitch
      · rw [if_pos (show (nget (x :: l) (i + 1)).equalPitch = pitch from hm)]
        rw [show removeNote (i + 1) (x :: l) = x :: removeNote i l from rfl]
        rw [ih (removeNote i l) (i + 1) x
          (by rw [removeNote, List.length_eraseIdx_of_lt hc]; omega)]
        conv_rhs => rw [noteOffScan, dif_pos hc, if_pos hm]
      · rw [if_neg (show ¬ (nget (x :: l) (i + 1)).equalPitch = pitch from hm)]
        rw [ih l (i + 1) x (by omega)]
        conv_rhs => rw [noteOffScan, dif_pos hc, if_neg hm]
    · rw [noteOffScan, dif_neg (by simp; omega)]
      rw [noteOffScan, dif_neg (by omega)]

theorem noteOffScan_eq_noteOffS (pitch : Int) :
    ∀ (n : Nat) (l : List Note), l.length ≤ n →
      noteOffScan pitch 0 l = noteOffS pitch l := by
  intro n
  induction n with
  | zero =>
    intro l h
    cases l with
    | nil => rw [noteOffScan_nil]; rfl
    | cons x t => simp at h
  | succ n ih =>
    intro l h
    cases l with
    | nil => rw [noteOffScan_nil]; rfl
    | cons x t =>
      rw [noteOffScan, dif_pos (by simp)]
      by_cases hm : x.equalPitch = pitch
      · rw [if_pos (show (nget (x :: t) 0).equalPitch = pitch from hm)]
        rw [show removeNote 0 (x :: t) = t from rfl]
        cases t with
        | nil =>
          rw [noteOffScan_nil]
          simp [noteOffS, hm]
        | cons y u =>
          rw [noteOffScan_cons pitch u.length u 0 y (by omega)]
          rw [ih u (by simp at h; omega)]
          simp [noteOffS, hm]
      · rw [if_neg (show ¬ (nget (x :: t) 0).equalPitch = pitch from hm)]
        rw [noteOffScan_cons pitch t.length t 0 x (by omega)]
        rw [ih t (by simp at h; omega)]
        cases t with
        | nil => simp [noteOffS, hm]
        | cons y u => simp [noteOffS, hm]

theorem noteOffS_of_countP_zero (pitch : Int) :
    ∀ l : List Note, l.countP (fun N => N.equalPitch == pitch) = 0 →
      noteOffS pitch l = l := by
  intro l
  induction l with
  | nil => intro _; rfl
  | cons x t ih =>
    intro h
    rw [List.countP_cons] at h
    have hx : ¬ x.equalPitch = pitch := by
      intro hc
      simp [hc] at h
    have ht : t.countP (fun N => N.equalPitch == pitch) = 0 := by
      by_cases hpx : (x.equalPitch == pitch) = true
      · simp at hpx; exact absurd hpx hx
      · simp [hpx] at h; simpa using h
    cases t with
    | nil => simp [noteOffS, hx]
    | cons y u => rw [noteOffS, if_neg hx, ih ht]

theorem noteOffS_countP_one (pitch : Int) :
    ∀ l : List Note, l.countP (fun N => N.equalPitch == pitch) = 1 →
      noteOffS pitch l = l.eraseP fun N => N.equalPitch == pitch := by
  intro l
  induction l with
  | nil => intro h; simp at h
  | cons x t ih =>
    intro h
    rw [List.countP_cons] at h
    by_cases hx : x.equalPitch = pitch
    · have hpx : (x.equalPitch == pitch) = true := by simpa using hx
      rw [show List.eraseP (fun N => N.equalPitch == pitch) (x :: t) = t from
        List.eraseP_cons_of_pos hpx]
      have ht : t.countP (fun N => N.equalPitch == pitch) = 0 := by
        rw [hpx] at h; simpa using h
      cases t with
      | nil => simp [noteOffS, hx]
      | cons y u =>
        rw [noteOffS, if_pos hx]
        rw [List.countP_cons] at ht
        have hu : u.countP (fun N => N.equalPitch == pitch) = 0 := by
          by_cases hpy : (y.equalPitch == pitch) = true
          · simp [hpy] at ht
          · simp [hpy] at ht; simpa using ht
        rw [noteOffS_of_countP_zero pitch u hu]
    · have hpx : ¬ (x.equalPitch == pitch) = true := by simpa using hx
      rw [show List.eraseP (fun N => N.equalPitch == pitch) (x :: t) =
          x :: List.eraseP (fun N => N.equalPitch == pitch) t from
        List.eraseP_cons_of_neg hpx]
      have ht : t.countP (fun N => N.equalPitch == pitch) = 1 := by
        simp [hpx] at h; simpa using h
      cases t with
      | nil => simp at ht
      | cons y u => rw [noteOffS, if_neg hx, ih ht]

theorem noteHandler_noteOff_eq_eraseP (pitch v : Int) (l : List Note) (hv : v ≤ 0)
    (h : l.countP (fun N => N.equalPitch == pitch) = 1) :
    noteHandler pitch v l = l.eraseP fun N => N.equalPitch == pitch := by
  unfold noteHandler
  rw [if_neg (by omega), noteOffScan_eq_noteOffS pitch l.length l (le_refl _),
    noteOffS_countP_one pitch l h]

/-! ### The pairwise step as the specification words it -/

theorem updateOrder_eq_max (N : Note) (o : Int) :
    updateOrder N o = { N with order := max N.order o } := by
  cases N with
  | mk e j r v =>
    simp only [updateOrder]
    split <;> rename_i h <;>
      (simp only [Note.mk.injEq, true_and, and_true]; omega)

/-- The body of the pairwise-adjustment step exactly as the specification
describes it: look up `entry` at the chromatic class of the interval, adjust
only when `entry.rank` beats one of the two notes' applied ranks, move the
note with the strictly lower applied rank relative to the other one by the
compound just interval (ties adjusting the high note), and raise both applied
ranks to `max(appliedRank, entry.rank)`. -/
def pairStepSpec (sys : List JustObj) (lo hi : Nat) (arr : List Note) : List Note :=
  let lowNote := nget arr lo
  let highNote := nget arr hi
  let interval : Int := highNote.equalPitch - lowNote.equalPitch
  let entry := sys.getD ((interval % 12).toNat) dObj
  if entry.order > highNote.order ∨ entry.order > lowNote.order then
    let compoundJust : ℚ := (entry.justInterval - ((interval % 12 : Int) : ℚ)) + (interval : ℚ)
    if highNote.order > lowNote.order then
      (arr.set lo
        { lowNote with justPitch := highNote.justPitch - compoundJust,
                       order := max lowNote.order entry.order }).set hi
        { highNote with order := max highNote.order entry.order }
    else
      (arr.set lo { lowNote with order := max lowNote.order entry.order }).set hi
        { highNote with justPitch := lowNote.justPitch + compoundJust,
                        order := max highNote.order entry.order }
  else arr

theorem pairStep_eq_pairStepSpec (sys : List JustObj) (lo hi : Nat) (arr : List Note) :
    pairStep sys lo hi arr = pairStepSpec sys lo hi arr := by
  simp only [pairStep, pairStepSpec, adjustCond, createInterval]
  split_ifs with h1 h2 <;> simp [updateOrder_eq_max]

/-! ### Sortedness of the held notes after a pass -/

theorem sorted_map_equalPitch_justify (sys : List JustObj) (mm : Bool) (l1 : List Note)
    (h : 2 ≤ (justify sys mm l1).length) :
    List.Sorted (· ≤ ·) ((justify sys mm l1).map Note.equalPitch) := by
  unfold justify at h ⊢
  by_cases he : l1.isEmpty
  · rw [if_pos he] at h
    cases l1 with
    | nil => simp at h
    | cons x t => simp at he
  · rw [if_neg he] at h ⊢
    by_cases hlen : 1 < l1.length
    · have hpres := fixedJustify_preserves_sortReset sys mm l1 hlen
      have hmapeq : (sortPitchesAscending (resetJustPitches l1)).map Note.equalPitch =
          (fixedJustify sys mm l1).map Note.equalPitch :=
        map_eq_of_preserves Note.equalPitch hpres fun x y hxy hv => hxy
      rw [← hmapeq]
      have hsorted : List.Sorted noteLE (sortPitchesAscending (resetJustPitches l1)) :=
        sorted_sortPitchesAscending _
      exact List.Pairwise.map Note.equalPitch (fun a b hab => hab) hsorted
    · rw [length_fixedJustify] at h
      omega

/-! ### Concrete states used in witnesses and counterexamples -/

/-- A pitch-60 note as created by `new Note(60, 100)`. -/
def n60 : Note := { equalPitch := 60, justPitch := 60, order := -1, velocity := 100 }

/-- A pitch-64 note as created by `new Note(64, 100)`. -/
def n64 : Note := { equalPitch := 64, justPitch := 64, order := -1, velocity := 100 }

/-- The untouched two-note chord used by the spec scenarios. -/
def chordL : List Note := [n60, n64]

/-- The state after `noteIn 60 100` and `noteIn 64 100` from the initial
state: the 60/64 chord, mean-centred under the five-limit table. -/
def chordSt : St := (noteIn 64 100 (noteIn 60 100 initSt).1).1

/-- `chordSt` after `setMeanMode 0`: the mode flag is off but the held notes
still carry the mean-centred pitches from the earlier pass. -/
def modeOffSt : St := (setMeanMode 0 chordSt).1

/-- A state holding the already-justified 60/64 chord. -/
def justChordSt : St :=
  { intensity := 0.75, meanMode := true,
    heldNotes := fixedJustify fiveLimit true chordL, justSystem := fiveLimit }

/-! ### The claims -/

/-- Claim C1, counterexample: with three held notes of pitch 60, a single
note-off event removes two of them (the removal loop keeps advancing its
index after a splice), not exactly one; the claim predicts the result
`[n60, n60]` of length 2, but the code leaves a single note. -/
theorem noteOff_duplicates_counterexample :
    (noteHandler 60 0 [n60, n60, n60]).length = 1 ∧
      noteHandler 60 0 [n60, n60, n60] ≠ [n60, n60] := by
  have h : noteHandler 60 0 [n60, n60, n60] = noteOffS 60 [n60, n60, n60] := by
    unfold noteHandler
    rw [if_neg (by omega), noteOffScan_eq_noteOffS 60 3 _ (by simp)]
  rw [h]
  have h2 : noteOffS 60 [n60, n60, n60] = [n60] := by
    simp [noteOffS, n60]
  rw [h2]
  refine ⟨rfl, fun hc => ?_⟩
  have := congrArg List.length hc
  simp at this

/-- Claim C1 (amended): a note-off event (`velocity ≤ 0`) whose pitch matches
exactly one held Note removes exactly that Note, the first match in array
order (`List.eraseP`); with two or more matching Notes the loop skips the
element shifted into a removed slot, so more than one Note can be removed. -/
theorem noteOff_removes_unique_match (pitch v : Int) (l : List Note) (hv : v ≤ 0)
    (h : l.countP (fun N => N.equalPitch == pitch) = 1) :
    noteHandler pitch v l = l.eraseP fun N => N.equalPitch == pitch :=
  noteHandler_noteOff_eq_eraseP pitch v l hv h

/-- Witness for the amended C1 at pitch 60, velocity 0, held notes 60/64. -/
theorem noteOff_removes_unique_match_witness :
    ((0 : Int) ≤ 0) ∧
      ([n60, n64].countP (fun N => N.equalPitch == 60) = 1) ∧
      noteHandler 60 0 [n60, n64] = [n60, n64].eraseP fun N => N.equalPitch == 60 :=
  ⟨le_refl 0, by decide, noteOff_removes_unique_match 60 0 [n60, n64] (le_refl 0) (by decide)⟩

/-- Claim C2: in the pairwise-adjustment step of a retuning pass the pairs
are visited with the outer loop over the low index ascending and the inner
loop over the high index ascending from `low + 1`, and each visited pair is
transformed exactly as the specification describes (`pairStepSpec`): the
pair is adjusted precisely when `entry.rank` exceeds one of the two applied
ranks, the note with the strictly lower applied rank is moved relative to
the other by the compound just interval with ties adjusting the high note,
and both applied ranks become `max(appliedRank, entry.rank)`. -/
theorem adjustPitches_pairwise_spec (sys : List JustObj) (arr : List Note) :
    adjustPitches sys arr =
      (List.range (arr.length - 1)).foldl
        (fun a lo =>
          (List.range' (lo + 1) (arr.length - (lo + 1))).foldl
            (fun b hi => pairStepSpec sys lo hi b) a)
        arr := by
  unfold adjustPitches
  simp only [pairStep_eq_pairStepSpec]

/-- Claim C3: with mean-centering enabled, a retuning pass over at least one
held note restores the sum of the working pitches to the sum of the original
pitches, exactly over ℚ. -/
theorem meanMode_sum_invariant (sys : List JustObj) (l : List Note)
    (h : 1 ≤ l.length) :
    ((justify sys true l).map Note.justPitch).sum =
      (l.map fun N => (N.equalPitch : ℚ)).sum := by
  unfold justify
  rw [if_neg (by cases l with | nil => simp at h | cons x t => simp)]
  exact sum_fixedJustify_meanMode sys l

/-- Witness for C3 on the 60/64 chord under the five-limit table. -/
theorem meanMode_sum_invariant_witness :
    (1 ≤ (chordL : List Note).length) ∧
      ((justify fiveLimit true chordL).map Note.justPitch).sum =
        (chordL.map fun N => (N.equalPitch : ℚ)).sum :=
  ⟨by decide, meanMode_sum_invariant fiveLimit chordL (by decide)⟩

/-- Claim C4: on a state whose held notes are the result of a completed
retuning pass, `setIntensity v` leaves every working pitch unchanged (the
re-run of `adjustPitches` without a reset finds no pair satisfying the
tie-break guard) and re-emits a pitch message per held note whose bend is
`(workingPitch - originalPitch) * v`. -/
theorem setIntensity_no_retune (st : St) (l : List Note) (v : ℚ)
    (h : st.heldNotes = fixedJustify st.justSystem st.meanMode l) :
    (setIntensity v st).1.heldNotes = st.heldNotes ∧
      (setIntensity v st).2 =
        (st.heldNotes.map fun o =>
          Msg.noteMessage o.equalPitch ((o.justPitch - (o.equalPitch : ℚ)) * v)) ++
          justCompOut { st with intensity := v } := by
  obtain ⟨i, m, hn, js⟩ := st
  simp only at h
  have hadj : adjustPitches js hn = hn := by
    rw [h]
    exact adjustPitches_fixedJustify js m l
  constructor
  · show adjustPitches js hn = hn
    exact hadj
  · show allNoteMsgOut
        { intensity := v, meanMode := m, heldNotes := adjustPitches js hn,
          justSystem := js } = _
    rw [hadj]
    rfl

/-- Witness for C4: the justified 60/64 chord, intensity halved. -/
theorem setIntensity_no_retune_witness :
    (justChordSt.heldNotes =
      fixedJustify justChordSt.justSystem justChordSt.meanMode chordL) ∧
      ((setIntensity (1/2) justChordSt).1.heldNotes = justChordSt.heldNotes ∧
        (setIntensity (1/2) justChordSt).2 =
          (justChordSt.heldNotes.map fun o =>
            Msg.noteMessage o.equalPitch ((o.justPitch - (o.equalPitch : ℚ)) * (1/2))) ++
            justCompOut { justChordSt with intensity := 1/2 }) :=
  ⟨rfl, setIntensity_no_retune justChordSt chordL (1/2) rfl⟩

/-- Claim C5, counterexample: `setMeanMode 0` on the mean-centred 60/64 chord
changes no held note (no retuning pass runs), and the stored working pitches
do not agree with what a retuning pass under the new mode yields, so the
working pitches do not reflect the new mode after the call returns. -/
theorem setMeanMode_counterexample :
    modeOffSt.heldNotes = chordSt.heldNotes ∧
      modeOffSt.heldNotes ≠
        justify modeOffSt.justSystem modeOffSt.meanMode modeOffSt.heldNotes := by
  refine ⟨by with_unfolding_all rfl, ?_⟩
  have h1 : modeOffSt.heldNotes =
      [⟨60, 6007/100, 2, 100⟩, ⟨64, 6393/100, 2, 100⟩] := by
    with_unfolding_all rfl
  have h2 : justify modeOffSt.justSystem modeOffSt.meanMode modeOffSt.heldNotes =
      [⟨60, 60, 2, 100⟩, ⟨64, 3193/50, 2, 100⟩] := by
    with_unfolding_all rfl
  rw [h2, h1]
  intro hc
  simp only [List.cons.injEq, Note.mk.injEq] at hc
  norm_num at hc

/-- Claim C5 (amended): `setMeanMode` with a valid boolean-equivalent
argument (0 or 1) updates only the `meanMode` flag; it triggers no retuning
pass, so the held notes (in particular every working pitch) and the rest of
the configuration are unchanged, and nothing is emitted.  The new mode takes
effect only at the next retuning pass. -/
theorem setMeanMode_updates_flag_only (val : Int) (st : St) (h : val = 0 ∨ val = 1) :
    (setMeanMode val st).1.heldNotes = st.heldNotes ∧
      (setMeanMode val st).1.meanMode = decide (val = 1) ∧
      (setMeanMode val st).1.justSystem = st.justSystem ∧
      (setMeanMode val st).1.intensity = st.intensity ∧
      (setMeanMode val st).2 = [] := by
  rcases h with rfl | rfl
  · exact ⟨rfl, by rfl, rfl, rfl, rfl⟩
  · exact ⟨rfl, by rfl, rfl, rfl, rfl⟩

/-- Witness for the amended C5 at `val = 0` on the held chord. -/
theorem setMeanMode_updates_flag_only_witness :
    ((0 : Int) = 0 ∨ (0 : Int) = 1) ∧
      ((setMeanMode 0 chordSt).1.heldNotes = chordSt.heldNotes ∧
        (setMeanMode 0 chordSt).1.meanMode = decide ((0 : Int) = 1) ∧
        (setMeanMode 0 chordSt).1.justSystem = chordSt.justSystem ∧
        (setMeanMode 0 chordSt).1.intensity = chordSt.intensity ∧
        (setMeanMode 0 chordSt).2 = []) :=
  ⟨Or.inl rfl, setMeanMode_updates_flag_only 0 chordSt (Or.inl rfl)⟩

/-- Claim C6, counterexample: selecting the valid tuning table 7 while two
notes are held re-tunes them but emits no message at all, in particular no
pitch message per held note. -/
theorem setLimit_emits_nothing_counterexample :
    (setLimit 7 chordSt).1.heldNotes.length = 2 ∧ (setLimit 7 chordSt).2 = [] := by
  constructor
  · with_unfolding_all rfl
  · rfl

/-- Claim C6 (amended): after the retuning pass triggered by a note event,
a pitch message pairing `originalPitch` with
`(workingPitch - originalPitch) * intensity` is emitted for every held Note
(the pass triggered by `setLimit` emits no pitch messages, see the
counterexample). -/
theorem noteIn_emits_noteMessage (pitch v : Int) (st : St) (N : Note)
    (hN : N ∈ (noteIn pitch v st).1.heldNotes) :
    Msg.noteMessage N.equalPitch ((N.justPitch - (N.equalPitch : ℚ)) * st.intensity) ∈
      (noteIn pitch v st).2 := by
  refine List.mem_cons_of_mem _ (List.mem_append_left _ (List.mem_append_left _ ?_))
  exact List.mem_map_of_mem _ hN

/-- Witness for the amended C6: the first note event from the initial
state emits the pitch message for the single held note. -/
theorem noteIn_emits_noteMessage_witness :
    (n60 ∈ (noteIn 60 100 initSt).1.heldNotes) ∧
      Msg.noteMessage n60.equalPitch
          ((n60.justPitch - (n60.equalPitch : ℚ)) * initSt.intensity) ∈
        (noteIn 60 100 initSt).2 := by
  have hmem : n60 ∈ (noteIn 60 100 initSt).1.heldNotes := by
    have h : (noteIn 60 100 initSt).1.heldNotes = [n60] := by with_unfolding_all rfl
    rw [h]
    exact List.mem_singleton.mpr rfl
  exact ⟨hmem, noteIn_emits_noteMessage 60 100 initSt n60 hmem⟩

/-- Claim C7: a retuning pass is idempotent: running `justify` twice in a
row with no intervening note or configuration events yields the same working
pitch (indeed the same Note) for every held note both times. -/
theorem justify_idempotent (sys : List JustObj) (mm : Bool) (l : List Note) :
    justify sys mm (justify sys mm l) = justify sys mm l :=
  justify_idem_helper sys mm l

/-- Claim C8, counterexample: `setLimit 9` is rejected and the table is kept,
but the unconditional `justify()` call at the end of `setLimit` re-tunes the
held notes under the current configuration; after `setMeanMode 0` (which does
not retune) this changes the stored working pitches. -/
theorem setLimit_invalid_counterexample :
    (setLimit 9 modeOffSt).1.justSystem = modeOffSt.justSystem ∧
      (setLimit 9 modeOffSt).1.heldNotes.map Note.justPitch ≠
        modeOffSt.heldNotes.map Note.justPitch := by
  constructor
  · rfl
  · have h1 : (setLimit 9 modeOffSt).1.heldNotes.map Note.justPitch =
        [60, 3193/50] := by
      with_unfolding_all rfl
    have h2 : modeOffSt.heldNotes.map Note.justPitch = [6007/100, 6393/100] := by
      with_unfolding_all rfl
    rw [h1, h2]
    intro hc
    simp only [List.cons.injEq] at hc
    norm_num at hc

/-- Claim C8 (amended): for every integer not in {5, 7, 11, 13}, `setLimit`
posts the configuration error and leaves the selected table (and the rest of
the configuration) unchanged; however it still runs `justify()`, so the held
notes are recomputed under the unchanged configuration rather than left
untouched. -/
theorem setLimit_invalid_keeps_config (val : Int) (st : St)
    (h : ¬(val = 5 ∨ val = 7 ∨ val = 11 ∨ val = 13)) :
    (setLimit val st).1.justSystem = st.justSystem ∧
      (setLimit val st).1.intensity = st.intensity ∧
      (setLimit val st).1.meanMode = st.meanMode ∧
      (setLimit val st).2 = [Msg.consolePost limitErr] ∧
      (setLimit val st).1.heldNotes = justify st.justSystem st.meanMode st.heldNotes := by
  push_neg at h
  obtain ⟨h5, h7, h11, h13⟩ := h
  simp [setLimit, h5, h7, h11, h13]

/-- Witness for the amended C8 at `val = 9` on the held chord. -/
theorem setLimit_invalid_keeps_config_witness :
    (¬((9 : Int) = 5 ∨ (9 : Int) = 7 ∨ (9 : Int) = 11 ∨ (9 : Int) = 13)) ∧
      ((setLimit 9 chordSt).1.justSystem = chordSt.justSystem ∧
        (setLimit 9 chordSt).1.intensity = chordSt.intensity ∧
        (setLimit 9 chordSt).1.meanMode = chordSt.meanMode ∧
        (setLimit 9 chordSt).2 = [Msg.consolePost limitErr] ∧
        (setLimit 9 chordSt).1.heldNotes =
          justify chordSt.justSystem chordSt.meanMode chordSt.heldNotes) :=
  ⟨by decide, setLimit_invalid_keeps_config 9 chordSt (by decide)⟩

/-- Claim C9: in each of the four tuning tables the twelve rank values form a
permutation of 0..11, and the entry at chromatic class 0 has just deviation 0
and the maximum rank 11. -/
theorem limit_tables_invariant :
    (List.Perm (fiveLimit.map JustObj.order) ((List.range 12).map Int.ofNat) ∧
      List.Perm (sevenLimit.map JustObj.order) ((List.range 12).map Int.ofNat) ∧
      List.Perm (elevenLimit.map JustObj.order) ((List.range 12).map Int.ofNat) ∧
      List.Perm (thirteenLimit.map JustObj.order) ((List.range 12).map Int.ofNat)) ∧
    ((fiveLimit.getD 0 dObj).justInterval = 0 ∧ (fiveLimit.getD 0 dObj).order = 11 ∧
      (sevenLimit.getD 0 dObj).justInterval = 0 ∧ (sevenLimit.getD 0 dObj).order = 11 ∧
      (elevenLimit.getD 0 dObj).justInterval = 0 ∧ (elevenLimit.getD 0 dObj).order = 11 ∧
      (thirteenLimit.getD 0 dObj).justInterval = 0 ∧
      (thirteenLimit.getD 0 dObj).order = 11) ∧
    ((fiveLimit.map JustObj.order).all (fun o => o ≤ 11) ∧
      (sevenLimit.map JustObj.order).all (fun o => o ≤ 11) ∧
      (elevenLimit.map JustObj.order).all (fun o => o ≤ 11) ∧
      (thirteenLimit.map JustObj.order).all (fun o => o ≤ 11)) := by
  refine ⟨⟨by decide, by decide, by decide, by decide⟩,
    ⟨rfl, by decide, rfl, by decide, rfl, by decide, rfl, by decide⟩,
    ⟨by decide, by decide, by decide, by decide⟩⟩

/-- Claim C10: after every note event that leaves at least two notes held,
the held-note array itself is sorted ascending by `equalPitch` (the pass
sorts the array in place), and the per-note `offsetList` output follows that
array order. -/
theorem noteIn_sorted_after_event (pitch v : Int) (st : St)
    (h : 2 ≤ (noteIn pitch v st).1.heldNotes.length) :
    List.Sorted (· ≤ ·) ((noteIn pitch v st).1.heldNotes.map Note.equalPitch) ∧
      Msg.offsetList ((noteIn pitch v st).1.heldNotes.map fun N =>
        (N.justPitch - (N.equalPitch : ℚ)) * st.intensity) ∈ (noteIn pitch v st).2 ∧
      (noteIn pitch v st).2 =
        Msg.noteControl pitch v ::
          (((noteIn pitch v st).1.heldNotes.map fun o =>
              Msg.noteMessage o.equalPitch
                ((o.justPitch - (o.equalPitch : ℚ)) * st.intensity)) ++
              justCompOut (noteIn pitch v st).1 ++ [Msg.done]) := by
  refine ⟨?_, ?_, rfl⟩
  · exact sorted_map_equalPitch_justify st.justSystem st.meanMode
      (noteHandler pitch v st.heldNotes) h
  · refine List.mem_cons_of_mem _ (List.mem_append_left _ (List.mem_append_right _ ?_))
    refine List.mem_append_right _ ?_
    exact List.mem_singleton.mpr rfl

/-- Witness for C10: the second note event leaves the sorted 60/64 chord. -/
theorem noteIn_sorted_after_event_witness :
    (2 ≤ (noteIn 64 100 (noteIn 60 100 initSt).1).1.heldNotes.length) ∧
      (List.Sorted (· ≤ ·)
          ((noteIn 64 100 (noteIn 60 100 initSt).1).1.heldNotes.map Note.equalPitch) ∧
        Msg.offsetList ((noteIn 64 100 (noteIn 60 100 initSt).1).1.heldNotes.map fun N =>
            (N.justPitch - (N.equalPitch : ℚ)) *
              (noteIn 60 100 initSt).1.intensity) ∈
          (noteIn 64 100 (noteIn 60 100 initSt).1).2 ∧
        (noteIn 64 100 (noteIn 60 100 initSt).1).2 =
          Msg.noteControl 64 100 ::
            (((noteIn 64 100 (noteIn 60 100 initSt).1).1.heldNotes.map fun o =>
                Msg.noteMessage o.equalPitch
                  ((o.justPitch - (o.equalPitch : ℚ)) *
                    (noteIn 60 100 initSt).1.intensity)) ++
                justCompOut (noteIn 64 100 (noteIn 60 100 initSt).1).1 ++ [Msg.done])) :=
  ⟨by with_unfolding_all decide,
    noteIn_sorted_after_event 64 100 (noteIn 60 100 initSt).1
      (by with_unfolding_all decide)⟩

end JustIn
